import Mathlib

/-!
Verification of the analytics pipeline in cogs/graphs.py (TLE-Lite).

The Python functions are shallowly embedded as Lean definitions:

* integers stay integers (Lean Int / Nat);
* Python float division is modelled by exact rational division (the spec
  states its formulas over real arithmetic, and no claim hinges on binary
  float rounding);
* a Python datetime is identified with its numeric epoch timestamp,
  because the code converts datetime to timestamp before computing and back
  afterwards, and both conversions are bijective in the model;
* a Python runtime error (IndexError, ZeroDivisionError, KeyError) is
  modelled by an Option-valued function returning none.
-/

namespace Graphs

/-- A Codeforces rating change record, as used by the rating command.
Mirrors the fields read by the code: data.oldRating, data.newRating,
and the update time (used only for ordering, which the input already has). -/
structure RatingChange where
  oldRating : Int
  newRating : Int
  ratingUpdateTimeSeconds : Int
deriving Repr, DecidableEq

/-- Embedding of max_prefix from cogs/graphs.py (lines 142-152):

    def max_prefix(user):
        max_rate = 0
        res = []
        for data in user:
            old_rating = data.oldRating
            if old_rating == 0:
                old_rating = 1500
            if data.newRating - old_rating >= 0 and data.newRating >= max_rate:
                max_rate = data.newRating
                res.append(data)
        return(res)

The loop state (max_rate, res) is threaded through a left fold. -/
def max_prefix (user : List RatingChange) : List RatingChange :=
  (user.foldl
    (fun (st : Int × List RatingChange) data =>
      let max_rate := st.1
      let res := st.2
      let old_rating := if data.oldRating = 0 then 1500 else data.oldRating
      if data.newRating - old_rating ≥ 0 ∧ data.newRating ≥ max_rate then
        (data.newRating, res ++ [data])
      else
        (max_rate, res))
    (0, [])).2

/-- The effective old rating of the spec: 1500 when old_rating equals 0
(unrated baseline convention) and old_rating otherwise. -/
def effectiveOld (data : RatingChange) : Int :=
  if data.oldRating = 0 then 1500 else data.oldRating

/-- The left-to-right scan described by the specification of the
peak-prefix extractor, written word for word from the spec: a running
maximum max_rate (first argument) starts at 0; a change is kept iff
new_rating minus effective_old_rating is ≥ 0, AND
new_rating ≥ max_rate; on keep, max_rate becomes new_rating. -/
def peakPrefixSpec (max_rate : Int) : List RatingChange → List RatingChange
  | [] => []
  | data :: rest =>
      if data.newRating - effectiveOld data ≥ 0 ∧ data.newRating ≥ max_rate then
        data :: peakPrefixSpec data.newRating rest
      else
        peakPrefixSpec max_rate rest

/-- The fold in max_prefix, run from an arbitrary starting state, appends
exactly the scan output of peakPrefixSpec to the accumulated result. -/
lemma max_prefix_fold_eq (user : List RatingChange) (m : Int) (acc : List RatingChange) :
    (user.foldl
      (fun (st : Int × List RatingChange) data =>
        let max_rate := st.1
        let res := st.2
        let old_rating := if data.oldRating = 0 then 1500 else data.oldRating
        if data.newRating - old_rating ≥ 0 ∧ data.newRating ≥ max_rate then
          (data.newRating, res ++ [data])
        else
          (max_rate, res))
      (m, acc)).2 = acc ++ peakPrefixSpec m user := by
  induction user generalizing m acc with
  | nil => simp [peakPrefixSpec]
  | cons data rest ih =>
      simp only [List.foldl_cons, peakPrefixSpec, effectiveOld]
      by_cases h : data.newRating - (if data.oldRating = 0 then 1500 else data.oldRating) ≥ 0
          ∧ data.newRating ≥ m
      · simp only [if_pos h, ih, List.append_assoc, List.singleton_append]
      · simp only [if_neg h, ih]

/-- The code function equals the spec scan started at max_rate = 0. -/
lemma max_prefix_eq_scan (user : List RatingChange) :
    max_prefix user = peakPrefixSpec 0 user := by
  have h := max_prefix_fold_eq user 0 []
  simpa [ max_prefix] using h

/-- The scan output is a sublist (order-preserving, not necessarily
contiguous subsequence) of the input, for every starting maximum. -/
lemma peakPrefixSpec_sublist (m : Int) (user : List RatingChange) :
    (peakPrefixSpec m user).Sublist user := by
  induction user generalizing m with
  | nil => simp [peakPrefixSpec]
  | cons data rest ih =>
      simp only [peakPrefixSpec]
      split
      · exact (ih data.newRating).cons₂ data
      · exact (ih m).cons data

/-- Every element kept by the scan has newRating at least the starting
maximum, and the kept newRating values are non-decreasing. -/
lemma peakPrefixSpec_bounds (m : Int) (user : List RatingChange) :
    (∀ d ∈ peakPrefixSpec m user, m ≤ d.newRating) ∧
      ((peakPrefixSpec m user).map RatingChange.newRating).Chain' (· ≤ ·) := by
  induction user generalizing m with
  | nil => simp [peakPrefixSpec]
  | cons data rest ih =>
      simp only [peakPrefixSpec]
      split
      · next h =>
        obtain ⟨ihmem, ihchain⟩ := ih data.newRating
        refine ⟨?_, ?_⟩
        · intro d hd
          rcases List.mem_cons.mp hd with rfl | hd
          · exact h.2
          · exact le_trans h.2 (ihmem d hd)
        · simp only [List.map_cons]
          refine List.chain'_cons'.mpr ⟨?_, ihchain⟩
          intro y hy
          rcases hl : peakPrefixSpec data.newRating rest with _ | ⟨d, tl⟩
          · simp [hl] at hy
          · simp only [hl, List.map_cons, List.head?_cons, Option.mem_def,
              Option.some.injEq] at hy
            subst hy
            exact ihmem d (by simp [hl])
      · exact ih m

/-- Embedding of the prefix-sum array built by _running_mean
(cogs/graphs.py lines 77-79):

    cum_sum = [0] * (n + 1)
    for i in range(n):
        cum_sum[i + 1] = x[i] + cum_sum[i]

cum_sum has length n + 1, starts at 0, and entry i + 1 is x[i] plus
entry i, which is exactly a left scan of addition from 0. -/
def cum_sum (x : List ℚ) : List ℚ :=
  List.scanl (fun acc v => v + acc) 0 x

/-- Embedding of _running_mean (cogs/graphs.py lines 74-85):

    res = [0] * (n - bin_size + 1)
    for i in range(bin_size, n + 1):
        res[i - bin_size] = (cum_sum[i] - cum_sum[i - bin_size]) / bin_size

With j = i - bin_size, res[j] = (cum_sum[j + bin_size] - cum_sum[j]) / bin_size
for j in range(n + 1 - bin_size); truncated Nat subtraction matches the
Python behavior that a list replicated a non-positive number of times
is empty. -/
def running_mean (x : List ℚ) (bin_size : ℕ) : List ℚ :=
  (List.range (x.length + 1 - bin_size)).map
    (fun j => ((cum_sum x).getD (j + bin_size) 0 - (cum_sum x).getD j 0) / (bin_size : ℚ))

/-- Embedding of _plot_average (cogs/graphs.py lines 91-98) viewed as the
series of points it plots: when the input is longer than the window it
plots the running mean of the timestamps zipped with the running mean of
the ratings, and otherwise (guard len(practice) > bin_size false) it
plots nothing. Datetimes are identified with their timestamps, since the
code converts to timestamps before averaging and back afterwards. -/
def plot_average (practice : List (ℚ × ℚ)) (bin_size : ℕ) : List (ℚ × ℚ) :=
  if bin_size < practice.length then
    (running_mean (practice.map Prod.fst) bin_size).zip
      (running_mean (practice.map Prod.snd) bin_size)
  else
    []

/-- The naive sliding-window average written from the spec words: element
i is the plain arithmetic mean (x[i] + ... + x[i+w-1]) / w, and there are
max(0, n - w + 1) elements. -/
def slidingMeanSpec (x : List ℚ) (w : ℕ) : List ℚ :=
  (List.range (x.length + 1 - w)).map
    (fun i => ((x.drop i).take w).sum / (w : ℚ))

/-- Entry i of the scan underlying cum_sum equals the sum of the first i
elements plus the starting accumulator. -/
lemma scanl_add_getD : ∀ (l : List ℚ) (s : ℚ) (i : ℕ), i ≤ l.length →
    (List.scanl (fun acc v => v + acc) s l).getD i 0 = (l.take i).sum + s := by
  intro l
  induction l with
  | nil =>
      intro s i hi
      have h0 : i = 0 := Nat.le_zero.mp hi
      subst h0
      simp [List.scanl]
  | cons a l ih =>
      intro s i hi
      cases i with
      | zero => simp [List.scanl]
      | succ j =>
          have hj : j ≤ l.length := by simpa using hi
          rw [List.scanl_cons, List.singleton_append, List.getD_cons_succ,
            ih (a + s) j hj, List.take_succ_cons, List.sum_cons]
          ring

/-- Entry i of cum_sum is the sum of the first i input elements. -/
lemma cum_sum_getD (x : List ℚ) (i : ℕ) (hi : i ≤ x.length) :
    (cum_sum x).getD i 0 = (x.take i).sum := by
  simpa using scanl_add_getD x 0 i hi

/-- Difference of two prefix sums is the sum over the window between them. -/
lemma cum_sum_window (x : List ℚ) (j w : ℕ) (h : j + w ≤ x.length) :
    (cum_sum x).getD (j + w) 0 - (cum_sum x).getD j 0 = ((x.drop j).take w).sum := by
  rw [cum_sum_getD x (j + w) h, cum_sum_getD x j (le_trans (Nat.le_add_right j w) h)]
  rw [List.take_add, List.sum_append]
  ring

/-- The prefix-sum implementation agrees elementwise with the naive
sliding-window mean. -/
lemma running_mean_eq_sliding (x : List ℚ) (w : ℕ) :
    running_mean x w = slidingMeanSpec x w := by
  unfold running_mean slidingMeanSpec
  refine List.map_congr_left ?_
  intro j hj
  have hjlt : j < x.length + 1 - w := List.mem_range.mp hj
  have h : j + w ≤ x.length := by omega
  rw [cum_sum_window x j w h]

/-- Length of the running mean output. -/
lemma running_mean_length (x : List ℚ) (w : ℕ) :
    (running_mean x w).length = x.length + 1 - w := by
  simp [running_mean]

/-- Embedding of Python bisect.bisect_left restricted to a list of
integers, as called by the centile command (cogs/graphs.py line 502).
CPython implements it as the loop

    lo, hi = 0, len(a)
    while lo < hi:
        mid = (lo + hi) // 2
        if a[mid] < x: lo = mid + 1
        else: hi = mid
    return lo

modelled here by structural recursion on the interval width. -/
def bisect_left_loop (a : List Int) (x : Int) (lo hi : ℕ) : ℕ :=
  if h : lo < hi then
    if a.getD ((lo + hi) / 2) 0 < x then
      bisect_left_loop a x ((lo + hi) / 2 + 1) hi
    else
      bisect_left_loop a x lo ((lo + hi) / 2)
  else lo
termination_by hi - lo
decreasing_by
  · omega
  · omega

/-- The leftmost insertion point of x into a, as bisect.bisect_left. -/
def bisect_left (a : List Int) (x : Int) : ℕ :=
  bisect_left_loop a x 0 a.length

/-- Embedding of the percentile-of-query computation of the centile
command (cogs/graphs.py lines 502-503):

    ix = bisect.bisect_left(ratings, info.rating)
    cent = 100*ix/len(ratings)

The division raises ZeroDivisionError exactly when the population is
empty, modelled by none. -/
def percentile_of (ratings : List Int) (q : Int) : Option ℚ :=
  if ratings.length = 0 then none
  else some (100 * (bisect_left ratings q : ℚ) / (ratings.length : ℚ))

/-- Python sorted() on integers: an ascending (stable) sort, modelled by
insertion sort. -/
def insertSorted (v : Int) : List Int → List Int
  | [] => [v]
  | a :: l => if v ≤ a then v :: a :: l else a :: insertSorted v l

/-- Python sorted() applied to a whole list. -/
def pySorted (l : List Int) : List Int :=
  l.foldr insertSorted []

/-- Embedding of the percentile curve of the centile command
(cogs/graphs.py lines 485-487 and 509):

    ratings = np.array(sorted(ratings))
    n = len(ratings)
    perc = 100*np.arange(n)/n
    ...
    ax.plot(ratings, perc, ...)

viewed as the list of plotted points (ratings[i], 100*i/n). For n = 0
every array is empty, no element is divided, and numpy raises no error,
so the result is the empty curve. -/
def percentile_curve (ratings : List Int) : List (Int × ℚ) :=
  let s := pySorted ratings
  (List.range s.length).map (fun i => (s.getD i 0, 100 * (i : ℚ) / (s.length : ℚ)))

/-- The bisect loop result never exceeds the upper bound of the interval. -/
lemma bisect_left_loop_le (a : List Int) (x : Int) (lo hi : ℕ) (h : lo ≤ hi) :
    bisect_left_loop a x lo hi ≤ hi := by
  induction lo, hi using bisect_left_loop.induct a x with
  | case1 lo hi hlt hcmp ih =>
      rw [bisect_left_loop, dif_pos hlt, if_pos hcmp]
      exact ih (by omega)
  | case2 lo hi hlt hcmp ih =>
      rw [bisect_left_loop, dif_pos hlt, if_neg hcmp]
      exact le_trans (ih (by omega)) (by omega)
  | case3 lo hi hlt =>
      rw [bisect_left_loop, dif_neg hlt]
      exact h

/-- Sorted lists have monotone getD on in-range indices. -/
lemma sorted_getD_mono (a : List Int) (hs : List.Sorted (· ≤ ·) a)
    (i j : ℕ) (hij : i ≤ j) (hj : j < a.length) :
    a.getD i 0 ≤ a.getD j 0 := by
  rcases Nat.lt_or_ge i j with hlt | hge
  · have hi : i < a.length := lt_trans hlt hj
    rw [a.getD_eq_getElem 0 hi, a.getD_eq_getElem 0 hj]
    exact List.pairwise_iff_getElem.mp hs i j hi hj hlt
  · have hij' : i = j := le_antisymm hij hge
    subst hij'
    exact le_refl _

/-- The bisect loop separates the list at its result: an in-range index
holds a value strictly below x exactly when it lies below the returned
insertion point, provided the interval endpoints already separate
correctly outside [lo, hi) and the list is sorted between reads. -/
lemma bisect_left_loop_sep (a : List Int) (x : Int)
    (hmono : ∀ i j, i ≤ j → j < a.length → a.getD i 0 ≤ a.getD j 0)
    (lo hi : ℕ) (hle : lo ≤ hi) (hhi : hi ≤ a.length)
    (hlow : ∀ i, i < lo → a.getD i 0 < x)
    (hhigh : ∀ i, hi ≤ i → i < a.length → ¬ a.getD i 0 < x) :
    ∀ i, i < a.length → (a.getD i 0 < x ↔ i < bisect_left_loop a x lo hi) := by
  induction lo, hi using bisect_left_loop.induct a x with
  | case1 lo hi hlt hcmp ih =>
      rw [bisect_left_loop, dif_pos hlt, if_pos hcmp]
      refine ih (by omega) hhi ?_ hhigh
      intro i hi'
      have hmid : (lo + hi) / 2 < a.length := by omega
      exact lt_of_le_of_lt (hmono i ((lo + hi) / 2) (by omega) hmid) hcmp
  | case2 lo hi hlt hcmp ih =>
      rw [bisect_left_loop, dif_pos hlt, if_neg hcmp]
      refine ih (by omega) (by omega) hlow ?_
      intro i hi' hilen h
      have : a.getD ((lo + hi) / 2) 0 < x :=
        lt_of_le_of_lt (hmono ((lo + hi) / 2) i hi' hilen) h
      exact hcmp this
  | case3 lo hi hlt =>
      rw [bisect_left_loop, dif_neg hlt]
      have hEq : lo = hi := by omega
      subst hEq
      intro i hilen
      constructor
      · intro h
        by_contra hcon
        exact hhigh i (by omega) hilen h
      · intro h
        exact hlow i h

/-- A list separated at p by the predicate (· < x) has exactly p
elements satisfying it. -/
lemma countP_of_sep (a : List Int) (x : Int) (p : ℕ) (hp : p ≤ a.length)
    (hsep : ∀ i, i < a.length → (a.getD i 0 < x ↔ i < p)) :
    a.countP (fun y => decide (y < x)) = p := by
  have hsplit := List.take_append_drop p a
  calc a.countP (fun y => decide (y < x))
      = ((a.take p) ++ (a.drop p)).countP (fun y => decide (y < x)) := by rw [hsplit]
    _ = (a.take p).countP (fun y => decide (y < x))
          + (a.drop p).countP (fun y => decide (y < x)) := List.countP_append _ _ _
    _ = p := by
        have htake : (a.take p).countP (fun y => decide (y < x)) = (a.take p).length := by
          apply List.countP_eq_length.mpr
          intro y hy
          obtain ⟨i, hi, hyi⟩ := List.mem_iff_getElem.mp hy
          have hip : i < p := by
            have := hi
            simp only [List.length_take] at this
            omega
          have hilen : i < a.length := by
            have := hi
            simp only [List.length_take] at this
            omega
          have hyv : y = a.getD i 0 := by
            rw [← hyi, List.getElem_take, a.getD_eq_getElem 0 hilen]
          rw [hyv]
          exact decide_eq_true ((hsep i hilen).mpr hip)
        have hdrop : (a.drop p).countP (fun y => decide (y < x)) = 0 := by
          apply List.countP_eq_zero.mpr
          intro y hy
          obtain ⟨i, hi, hyi⟩ := List.mem_iff_getElem.mp hy
          have hilen : p + i < a.length := by
            have := hi
            simp only [List.length_drop] at this
            omega
          have hyv : y = a.getD (p + i) 0 := by
            rw [← hyi, List.getElem_drop, a.getD_eq_getElem 0 hilen]
          rw [hyv]
          simp only [decide_eq_true_eq]
          intro hcon
          have := (hsep (p + i) hilen).mp hcon
          omega
        rw [htake, hdrop, List.length_take]
        omega

/-- For a sorted list, bisect_left returns the number of elements
strictly below the query. -/
lemma bisect_left_eq_countP (a : List Int) (x : Int)
    (hs : List.Sorted (· ≤ ·) a) :
    bisect_left a x = a.countP (fun y => decide (y < x)) := by
  have hmono := sorted_getD_mono a hs
  have hsep := bisect_left_loop_sep a x hmono 0 a.length (Nat.zero_le _) (le_refl _)
    (fun i hi => absurd hi (Nat.not_lt_zero i))
    (fun i hi hilen => absurd hilen (by omega))
  have hle := bisect_left_loop_le a x 0 a.length (Nat.zero_le _)
  exact (countP_of_sep a x (bisect_left a x) hle hsep).symm

/-- The ways the bucket-count computation of _rating_hist can raise at
runtime: the assert on the filtered ratings being non-empty (line 422),
the evaluation of the assert condition 100 % binsize == 0 (line 424,
an AssertionError when binsize does not divide 100, a ZeroDivisionError
when binsize is 0), and an IndexError from height[r // binsize]
(line 436). -/
inductive HistError where
  | assertEmptyRatings
  | assertBinsize
  | indexError
deriving Repr, DecidableEq

/-- Embedding of one iteration of the counting loop of _rating_hist
(cogs/graphs.py lines 434-436):

    height = [0] * bins
    for r in ratings:
        height[r // binsize] += 1

Python list indexing raises IndexError when the index is not below the
list length; the input r is non-negative (the caller filtered), so
r // binsize is the Nat division of its absolute value. -/
def hist_step (binsize : ℕ) (acc : Except HistError (List ℕ)) (r : Int) :
    Except HistError (List ℕ) :=
  match acc with
  | .error e => .error e
  | .ok h =>
      if r.toNat / binsize < h.length then
        .ok (h.set (r.toNat / binsize) (h.getD (r.toNat / binsize) 0 + 1))
      else
        .error .indexError

/-- Embedding of the bucket-count computation of _rating_hist
(cogs/graphs.py lines 421-436), with its checks in program order:

    ratings = [r for r in ratings if r >= 0]
    assert ratings, 'Cannot histogram plot empty list of ratings'
    assert 100%binsize == 0 # because bins is semi-hardcoded
    bins = 39*100//binsize
    ...
    height = [0] * bins
    for r in ratings:
        height[r // binsize] += 1

The filter silently drops negative values; the first assert fails on an
empty filtered list; evaluating the second assert raises for binsize 0
(ZeroDivisionError inside the condition) or binsize not dividing 100
(AssertionError), both collapsed into the assertBinsize outcome. The
color-table assertion of line 432 concerns only the external
cf.RATED_RANKS table and binsize, never the values being counted, and is
outside the claim. The filtered list is written out twice where the
source binds it once to the name ratings. -/
def hist_heights (ratings : List Int) (binsize : ℕ) : Except HistError (List ℕ) :=
  if ratings.filter (fun r => decide (0 ≤ r)) = [] then
    .error .assertEmptyRatings
  else if binsize = 0 ∨ 100 % binsize ≠ 0 then
    .error .assertBinsize
  else
    (ratings.filter (fun r => decide (0 ≤ r))).foldl (hist_step binsize)
      (.ok (List.replicate (39 * 100 / binsize) 0))

/-- Incrementing one in-range entry of a list of naturals raises its sum
by the same amount. -/
lemma sum_set_getD_add (h : List ℕ) (i : ℕ) (hi : i < h.length) (v : ℕ) :
    (h.set i (h.getD i 0 + v)).sum = h.sum + v := by
  induction h generalizing i with
  | nil => simp at hi
  | cons a t ih =>
      cases i with
      | zero =>
          simp only [List.set_cons_zero, List.getD_cons_zero, List.sum_cons]
          omega
      | succ j =>
          have hj : j < t.length := by simpa using hi
          simp only [List.set_cons_succ, List.getD_cons_succ, List.sum_cons, ih j hj]
          omega

/-- Characterization of the counting fold: starting from any state with
every incoming index in range, it succeeds, keeps the length, adds to
entry i the number of processed values whose bucket index is i, and adds
the number of processed values to the total. -/
lemma hist_fold_some (binsize : ℕ) :
    ∀ (l : List Int) (h0 : List ℕ),
    (∀ r ∈ l, r.toNat / binsize < h0.length) →
    ∃ h, l.foldl (hist_step binsize) (.ok h0) = .ok h ∧
      h.length = h0.length ∧
      (∀ i, i < h0.length →
        h.getD i 0 = h0.getD i 0 + l.countP (fun r => decide (r.toNat / binsize = i))) ∧
      h.sum = h0.sum + l.length := by
  intro l
  induction l with
  | nil =>
      intro h0 _
      exact ⟨h0, rfl, rfl, fun i _ => by simp, by simp⟩
  | cons r l ih =>
      intro h0 hall
      have hidx : r.toNat / binsize < h0.length := hall r (List.mem_cons_self r l)
      have hlen1 : (h0.set (r.toNat / binsize) (h0.getD (r.toNat / binsize) 0 + 1)).length
          = h0.length := by
        simp
      obtain ⟨h, hfold, hlen, hcount, hsum⟩ :=
        ih (h0.set (r.toNat / binsize) (h0.getD (r.toNat / binsize) 0 + 1)) (by
          intro r' hr'
          rw [hlen1]
          exact hall r' (List.mem_cons_of_mem r hr'))
      refine ⟨h, ?_, by omega, ?_, ?_⟩
      · rw [List.foldl_cons]
        have hstep : hist_step binsize (.ok h0) r
            = .ok (h0.set (r.toNat / binsize) (h0.getD (r.toNat / binsize) 0 + 1)) := by
          simp [hist_step, if_pos hidx]
        rw [hstep]
        exact hfold
      · intro i hi
        rw [hcount i (by omega), List.countP_cons]
        have hgetD1 : (h0.set (r.toNat / binsize)
              (h0.getD (r.toNat / binsize) 0 + 1)).getD i 0 =
            h0.getD i 0 + if r.toNat / binsize = i then 1 else 0 := by
          by_cases hEq : r.toNat / binsize = i
          · subst hEq
            simp [List.getD_eq_getElem?_getD, List.getElem?_set, hidx]
          · simp [List.getD_eq_getElem?_getD, List.getElem?_set, hEq]
        rw [hgetD1]
        by_cases hEq : r.toNat / binsize = i
        · simp only [hEq, decide_True, if_pos rfl, if_true]
          omega
        · simp only [hEq, decide_False, if_neg hEq]
          simp [hEq]
      · rw [hsum, sum_set_getD_add h0 _ hidx 1, List.length_cons]
        omega

/-- Nat division sends n to i exactly when n lies in the i-th bucket. -/
lemma div_eq_iff_bucket (n b i : ℕ) (hb : 0 < b) :
    n / b = i ↔ b * i ≤ n ∧ n < b * (i + 1) := by
  constructor
  · intro he
    subst he
    exact ⟨Nat.mul_div_le n b, Nat.lt_mul_div_succ n hb⟩
  · intro ⟨h1, h2⟩
    exact Nat.div_eq_of_lt_le (by rw [Nat.mul_comm]; exact h1)
      (by rw [Nat.mul_comm]; exact h2)

/-- The getD of a replicated list. -/
lemma getD_replicate_eq (n v i d : ℕ) :
    (List.replicate n v).getD i d = if i < n then v else d := by
  by_cases h : i < n
  · rw [if_pos h, List.getD_eq_getElem _ _ (by simpa using h), List.getElem_replicate]
  · rw [if_neg h, List.getD_eq_default _ _ (by simpa using h)]

/-- Counting by bucket index over the non-negative filter equals counting
membership in the bucket interval over the raw values. -/
lemma countP_bucket_eq (ratings : List Int) (binsize : ℕ) (i : ℕ) (hb : 1 ≤ binsize) :
    (ratings.filter (fun r => decide (0 ≤ r))).countP
        (fun r => decide (r.toNat / binsize = i)) =
      ratings.countP
        (fun r => decide ((binsize : Int) * i ≤ r ∧ r < (binsize : Int) * (i + 1))) := by
  rw [List.countP_filter]
  apply List.countP_congr
  intro r _
  simp only [Bool.and_eq_true, decide_eq_true_eq]
  constructor
  · intro ⟨hdiv, hpos⟩
    obtain ⟨hn1, hn2⟩ := (div_eq_iff_bucket r.toNat binsize i hb).mp hdiv
    constructor
    · calc ((binsize : Int) * i) = ((binsize * i : ℕ) : Int) := by push_cast; ring
        _ ≤ (r.toNat : Int) := by exact_mod_cast hn1
        _ = r := Int.toNat_of_nonneg hpos
    · calc r = (r.toNat : Int) := (Int.toNat_of_nonneg hpos).symm
        _ < ((binsize * (i + 1) : ℕ) : Int) := by exact_mod_cast hn2
        _ = (binsize : Int) * ((i : Int) + 1) := by push_cast; ring
  · intro ⟨h1, h2⟩
    have hpos : 0 ≤ r := le_trans (by positivity) h1
    refine ⟨(div_eq_iff_bucket r.toNat binsize i hb).mpr ⟨?_, ?_⟩, hpos⟩
    · have hcast : ((binsize * i : ℕ) : Int) ≤ (r.toNat : Int) := by
        rw [Int.toNat_of_nonneg hpos]
        push_cast
        exact h1
      exact_mod_cast hcast
    · have hcast : (r.toNat : Int) < ((binsize * (i + 1) : ℕ) : Int) := by
        rw [Int.toNat_of_nonneg hpos]
        push_cast
        exact h2
      exact_mod_cast hcast

/-- Python round() on an exact rational: round to the nearest integer,
ties to the even neighbour. -/
def pyRound (q : ℚ) : Int :=
  if q - ⌊q⌋ < 1/2 then ⌊q⌋
  else if 1/2 < q - ⌊q⌋ then ⌊q⌋ + 1
  else if Even ⌊q⌋ then ⌊q⌋ else ⌊q⌋ + 1

/-- One iteration of the cumulative percent loop of _rating_hist:
csum += h; cent.append(round(100 * csum / users)). -/
def cent_step (users : ℚ) (st : ℕ × List Int) (h : ℕ) : ℕ × List Int :=
  (st.1 + h, st.2 ++ [pyRound (100 * ((st.1 + h : ℕ) : ℚ) / users)])

/-- Embedding of the cumulative percent labels of _rating_hist
(cogs/graphs.py lines 438-443):

    csum = 0
    cent = [0]
    users = sum(height)
    for h in height:
        csum += h
        cent.append(round(100 * csum / users))
-/
def cent_labels (height : List ℕ) : List Int :=
  (height.foldl (cent_step (height.sum : ℚ)) (0, [0])).2

/-- Python round of zero is zero. -/
lemma pyRound_zero : pyRound 0 = 0 := by
  norm_num [pyRound]

/-- The sequence of rounded cumulative percentages appended by the loop,
one per processed element, starting from running count c. -/
def centScanSpec (users : ℚ) (c : ℕ) : List ℕ → List Int
  | [] => []
  | h :: t =>
      pyRound (100 * ((c + h : ℕ) : ℚ) / users) :: centScanSpec users (c + h) t

/-- The scan produces one label per processed element. -/
lemma centScanSpec_length (users : ℚ) : ∀ (l : List ℕ) (c : ℕ),
    (centScanSpec users c l).length = l.length := by
  intro l
  induction l with
  | nil => intro c; rfl
  | cons h t ih => intro c; simp [centScanSpec, ih (c + h)]

/-- The cumulative percent fold equals its start plus the scan output. -/
lemma cent_fold_eq (users : ℚ) (l : List ℕ) : ∀ (c : ℕ) (acc : List Int),
    l.foldl (cent_step users) (c, acc)
      = (c + l.sum, acc ++ centScanSpec users c l) := by
  induction l with
  | nil =>
      intro c acc
      simp [centScanSpec]
  | cons h t ih =>
      intro c acc
      rw [List.foldl_cons]
      show t.foldl (cent_step users)
          (c + h, acc ++ [pyRound (100 * ((c + h : ℕ) : ℚ) / users)]) = _
      rw [ih (c + h)]
      simp only [Prod.mk.injEq]
      constructor
      · rw [List.sum_cons]
        omega
      · simp [centScanSpec, List.append_assoc]

/-- Entry i of the scan is the rounded cumulative percentage through the
first i + 1 elements. -/
lemma centScanSpec_getD (users : ℚ) : ∀ (l : List ℕ) (c : ℕ) (i : ℕ), i < l.length →
    (centScanSpec users c l).getD i 0
      = pyRound (100 * ((c + (l.take (i + 1)).sum : ℕ) : ℚ) / users) := by
  intro l
  induction l with
  | nil =>
      intro c i hi
      simp at hi
  | cons h t ih =>
      intro c i hi
      cases i with
      | zero =>
          simp [centScanSpec, List.take_succ_cons]
      | succ j =>
          have hj : j < t.length := by simpa using hi
          rw [show centScanSpec users c (h :: t)
              = pyRound (100 * ((c + h : ℕ) : ℚ) / users)
                :: centScanSpec users (c + h) t from rfl]
          rw [List.getD_cons_succ, ih (c + h) j hj]
          have harg : (c + h + (t.take (j + 1)).sum : ℕ)
              = (c + ((h :: t).take (j + 1 + 1)).sum : ℕ) := by
            rw [List.take_succ_cons, List.sum_cons]
            omega
          exact congrArg (fun n : ℕ => pyRound (100 * (n : ℚ) / users)) harg

/-- A submission author, as read by the classifier: only the participant
type string matters to it. -/
structure Author where
  participantType : String
deriving Repr, DecidableEq

/-- A Codeforces submission, restricted to the fields the classifier
touches: its author (and a creation time for identity). -/
structure Submission where
  author : Author
  creationTimeSeconds : Int
deriving Repr, DecidableEq

/-- Modelled from the spec: cf.Party.PARTICIPANT_TYPES, the enumeration of
the four known participation types. The constant lives in
util/codeforces_api.py, outside this module; the spec lists the enum as
CONTESTANT, OUT_OF_COMPETITION, VIRTUAL, PRACTICE. -/
def PARTICIPANT_TYPES : List String :=
  ["CONTESTANT", "OUT_OF_COMPETITION", "VIRTUAL", "PRACTICE"]

/-- Appending a submission to the list stored at a key of an
insertion-ordered association-list dictionary; none models the Python
KeyError raised when the key is absent. -/
def dictAppend (m : List (String × List Submission)) (key : String) (s : Submission) :
    Option (List (String × List Submission)) :=
  match m with
  | [] => none
  | (k, l) :: rest =>
      if k = key then some ((k, l ++ [s]) :: rest)
      else (dictAppend rest key s).map (fun r => (k, l) :: r)

/-- Embedding of _classify_submissions (cogs/graphs.py lines 60-64):

    solved_by_type = (a dict with one empty list per PARTICIPANT_TYPES entry)
    for submission in submissions:
        solved_by_type[submission.author.participantType].append(submission)
    return solved_by_type

The dict is an insertion-ordered association list; indexing with an
unknown participant type raises KeyError, modelled as none. -/
def classify_submissions (submissions : List Submission) :
    Option (List (String × List Submission)) :=
  submissions.foldl
    (fun acc sub =>
      match acc with
      | none => none
      | some m => dictAppend m sub.author.participantType sub)
    (some (PARTICIPANT_TYPES.map (fun t => (t, []))))

/-- dictAppend with an absent key fails. -/
lemma dictAppend_not_mem (m : List (String × List Submission)) (key : String)
    (s : Submission) (hmem : key ∉ m.map Prod.fst) :
    dictAppend m key s = none := by
  induction m with
  | nil => rfl
  | cons kv rest ih =>
      obtain ⟨k, l⟩ := kv
      have hk : k ≠ key := by
        intro hEq
        exact hmem (by simp [hEq])
      rw [dictAppend, if_neg hk, ih (by
        intro hcon
        exact hmem (by simp [hcon]))]
      rfl

/-- dictAppend with a present key (keys distinct) updates exactly that
entry, appending the submission to its list. -/
lemma dictAppend_mem (m : List (String × List Submission)) (key : String)
    (s : Submission) (hmem : key ∈ m.map Prod.fst) (hnd : (m.map Prod.fst).Nodup) :
    dictAppend m key s
      = some (m.map (fun kv => if kv.1 = key then (kv.1, kv.2 ++ [s]) else kv)) := by
  induction m with
  | nil => simp at hmem
  | cons kv rest ih =>
      obtain ⟨k, l⟩ := kv
      have hnd' : (rest.map Prod.fst).Nodup := (List.nodup_cons.mp (by simpa using hnd)).2
      by_cases hk : k = key
      · subst hk
        have hrest : ∀ kv' ∈ rest, (if kv'.1 = k then (kv'.1, kv'.2 ++ [s]) else kv') = kv' := by
          intro kv' hkv'
          have : kv'.1 ≠ k := by
            intro hEq
            have hkmem : k ∈ rest.map Prod.fst := by
              exact hEq ▸ List.mem_map_of_mem Prod.fst hkv'
            exact (List.nodup_cons.mp (by simpa using hnd)).1 hkmem
          simp [this]
        rw [dictAppend, if_pos rfl]
        simp only [List.map_cons, if_pos rfl]
        rw [List.map_congr_left hrest]
        simp
      · have hmem' : key ∈ rest.map Prod.fst := by
          rcases List.mem_map.mp hmem with ⟨kv', hkv', hfst⟩
          rcases List.mem_cons.mp hkv' with rfl | hkv'
          · exact absurd hfst hk
          · exact hfst ▸ List.mem_map_of_mem Prod.fst hkv'
        rw [dictAppend, if_neg hk, ih hmem' hnd']
        simp [hk]

/-- A failed classification fold stays failed. -/
lemma classify_fold_none_absorb (subs : List Submission) :
    subs.foldl
      (fun acc sub =>
        match acc with
        | none => none
        | some m => dictAppend m sub.author.participantType sub)
      none = none := by
  induction subs with
  | nil => rfl
  | cons sub subs ih => exact ih

/-- The classification fold, started from a Nodup-keyed dictionary whose
keys cover every submission, appends each submission (in order) to the
entry of its participant type. -/
lemma classify_fold_some (subs : List Submission) :
    ∀ m0 : List (String × List Submission), (m0.map Prod.fst).Nodup →
    (∀ s ∈ subs, s.author.participantType ∈ m0.map Prod.fst) →
    subs.foldl
        (fun acc sub =>
          match acc with
          | none => none
          | some m => dictAppend m sub.author.participantType sub)
        (some m0)
      = some (m0.map (fun kv =>
          (kv.1, kv.2 ++ subs.filter (fun s => decide (s.author.participantType = kv.1))))) := by
  induction subs with
  | nil =>
      intro m0 _ _
      simp
  | cons sub subs ih =>
      intro m0 hnd hall
      have hmem : sub.author.participantType ∈ m0.map Prod.fst :=
        hall sub (List.mem_cons_self sub subs)
      rw [List.foldl_cons]
      have hstep := dictAppend_mem m0 sub.author.participantType sub hmem hnd
      rw [show (match some m0 with
          | none => none
          | some m => dictAppend m sub.author.participantType sub)
          = dictAppend m0 sub.author.participantType sub from rfl, hstep]
      have hkeys : ((m0.map (fun kv =>
          if kv.1 = sub.author.participantType then (kv.1, kv.2 ++ [sub]) else kv)).map
            Prod.fst) = m0.map Prod.fst := by
        rw [List.map_map]
        refine List.map_congr_left ?_
        intro kv _
        by_cases hEq : kv.1 = sub.author.participantType
        · simp [hEq]
        · simp [hEq]
      rw [ih _ (by rw [hkeys]; exact hnd) (by
        intro s hs
        rw [hkeys]
        exact hall s (List.mem_cons_of_mem sub hs))]
      congr 1
      rw [List.map_map]
      refine List.map_congr_left ?_
      intro kv _
      simp only [Function.comp_apply]
      by_cases hEq : kv.1 = sub.author.participantType
      · rw [if_pos hEq, List.filter_cons, if_pos (by simp [hEq])]
        simp [List.append_assoc]
      · rw [if_neg hEq, List.filter_cons, if_neg (by simp; intro hcon; exact hEq hcon.symm)]

/-- The classification fold fails when some submission has a type outside
the dictionary keys. -/
lemma classify_fold_none (subs : List Submission) :
    ∀ m0 : List (String × List Submission), (m0.map Prod.fst).Nodup →
    (∃ s ∈ subs, s.author.participantType ∉ m0.map Prod.fst) →
    subs.foldl
        (fun acc sub =>
          match acc with
          | none => none
          | some m => dictAppend m sub.author.participantType sub)
        (some m0)
      = none := by
  induction subs with
  | nil =>
      intro m0 _ hex
      simp at hex
  | cons sub subs ih =>
      intro m0 hnd hex
      rw [List.foldl_cons]
      by_cases hmem : sub.author.participantType ∈ m0.map Prod.fst
      · have hstep := dictAppend_mem m0 sub.author.participantType sub hmem hnd
        rw [show (match some m0 with
            | none => none
            | some m => dictAppend m sub.author.participantType sub)
            = dictAppend m0 sub.author.participantType sub from rfl, hstep]
        have hkeys : ((m0.map (fun kv =>
            if kv.1 = sub.author.participantType then (kv.1, kv.2 ++ [sub]) else kv)).map
              Prod.fst) = m0.map Prod.fst := by
          rw [List.map_map]
          refine List.map_congr_left ?_
          intro kv _
          by_cases hEq : kv.1 = sub.author.participantType
          · simp [hEq]
          · simp [hEq]
        refine ih _ (by rw [hkeys]; exact hnd) ?_
        obtain ⟨s, hs, hsnot⟩ := hex
        rcases List.mem_cons.mp hs with rfl | hs'
        · exact absurd hmem hsnot
        · exact ⟨s, hs', by rw [hkeys]; exact hsnot⟩
      · have hstep := dictAppend_not_mem m0 sub.author.participantType sub hmem
        rw [show (match some m0 with
            | none => none
            | some m => dictAppend m sub.author.participantType sub)
            = dictAppend m0 sub.author.participantType sub from rfl, hstep]
        exact classify_fold_none_absorb subs

end Graphs

open Graphs

/-- Claim C1: the peak-prefix extractor implements exactly the described
left-to-right scan (running maximum starting at 0, keep iff the change is a
non-decrease from the effective old rating, with 1500 substituted for an
old rating of 0, and the new rating is at least the running maximum).
CORRECTED as to the example: on the input
(old=0,new=1400),(old=1400,new=1600),(old=1600,new=1550) the scan keeps
only the second change, because 1400 - 1500 < 0 drops the first and
1550 < 1600 drops the third. -/
theorem C1_max_prefix_is_described_scan :
    (∀ user : List Graphs.RatingChange,
        max_prefix user = Graphs.peakPrefixSpec 0 user) ∧
      max_prefix
          [⟨0, 1400, 10⟩, ⟨1400, 1600, 20⟩, ⟨1600, 1550, 30⟩] =
        [⟨1400, 1600, 20⟩] := by
  constructor
  · exact Graphs.max_prefix_eq_scan
  · rfl

/-- Counterexample for claim C1 as stated: the claimed example output
(keep the first two changes) is wrong; the code keeps only the second
change, dropping the first one as well. -/
theorem C1_example_counterexample :
    max_prefix
        [⟨0, 1400, 10⟩, ⟨1400, 1600, 20⟩, ⟨1600, 1550, 30⟩] ≠
      [⟨0, 1400, 10⟩, ⟨1400, 1600, 20⟩] := by
  decide

/-- Claim C2: for every non-empty rating-change sequence, the output of
peak-prefix extraction is non-decreasing in newRating and is an
order-preserving (not necessarily contiguous) subsequence of the input. -/
theorem C2_max_prefix_monotone_sublist (user : List Graphs.RatingChange)
    (hne : user ≠ []) :
    (( max_prefix user).map Graphs.RatingChange.newRating).Chain' (· ≤ ·) ∧
      ( max_prefix user).Sublist user := by
  rw [Graphs.max_prefix_eq_scan]
  exact ⟨(Graphs.peakPrefixSpec_bounds 0 user).2, Graphs.peakPrefixSpec_sublist 0 user⟩

/-- Claim C3: for every numeric sequence and window w with
1 ≤ w ≤ len(seq), the running-mean smoother returns a sequence of length
len(seq) - w + 1; for every w > len(seq), it returns the empty sequence. -/
theorem C3_running_mean_length (x : List ℚ) (w : ℕ) :
    (1 ≤ w → w ≤ x.length → (Graphs.running_mean x w).length = x.length - w + 1) ∧
      (x.length < w → Graphs.running_mean x w = []) := by
  constructor
  · intro h1 h2
    rw [Graphs.running_mean_length]
    omega
  · intro h
    have h0 : x.length + 1 - w = 0 := by omega
    simp [Graphs.running_mean, h0]

/-- Witness for C3 at concrete inputs on both sides of the length split. -/
theorem C3_witness :
    ((1 ≤ 2 ∧ 2 ≤ ([1, 2, 3] : List ℚ).length) ∧
        (Graphs.running_mean [1, 2, 3] 2).length = ([1, 2, 3] : List ℚ).length - 2 + 1) ∧
      (([1] : List ℚ).length < 5 ∧ Graphs.running_mean [1] 5 = []) :=
  ⟨⟨⟨by norm_num, by norm_num⟩,
      (C3_running_mean_length [1, 2, 3] 2).1 (by norm_num) (by norm_num)⟩,
    ⟨by norm_num, (C3_running_mean_length [1] 5).2 (by norm_num)⟩⟩

/-- Claim C4: for every paired input series whose length is at most the
window (including equality), smoothing of the paired series produces the
empty sequence (the guard len(practice) > bin_size fails, so nothing is
smoothed or plotted), rather than signalling an error. -/
theorem C4_short_series_smooths_to_empty (practice : List (ℚ × ℚ)) (bin_size : ℕ)
    (h : practice.length ≤ bin_size) :
    Graphs.plot_average practice bin_size = [] := by
  unfold Graphs.plot_average
  rw [if_neg (by omega)]

/-- Witness for C4 at a series whose length equals the window. -/
theorem C4_witness :
    ([((0 : ℚ), (1000 : ℚ)), (1, 1100)] : List (ℚ × ℚ)).length ≤ 2 ∧
      Graphs.plot_average [((0 : ℚ), (1000 : ℚ)), (1, 1100)] 2 = [] :=
  ⟨by norm_num, C4_short_series_smooths_to_empty _ 2 (by norm_num)⟩

/-- Claim C5: the prefix-sum running mean is extensionally equal to the
naive sliding-window average (element i is the plain arithmetic mean of
the window starting at i), applied identically to the timestamp axis and
the value axis; in particular smoothing the four points
(t0,1000),(t1,1100),(t2,1200),(t3,1300) with window 2 yields the three
averaged points. -/
theorem C5_prefix_sum_refines_naive_mean :
    (∀ (x : List ℚ) (w : ℕ), 1 ≤ w → w ≤ x.length →
        Graphs.running_mean x w = Graphs.slidingMeanSpec x w) ∧
      (∀ t0 t1 t2 t3 : ℚ,
        Graphs.plot_average [(t0, 1000), (t1, 1100), (t2, 1200), (t3, 1300)] 2 =
          [((t0 + t1) / 2, 1050), ((t1 + t2) / 2, 1150), ((t2 + t3) / 2, 1250)]) := by
  constructor
  · intro x w _ _
    exact Graphs.running_mean_eq_sliding x w
  · intro t0 t1 t2 t3
    simp only [Graphs.plot_average, Graphs.running_mean, Graphs.cum_sum]
    norm_num [List.scanl, List.range_succ]
    refine ⟨by ring, by ring, by ring⟩

/-- Witness for C5 instantiating the universally quantified equivalence at
a concrete sequence and window. -/
theorem C5_witness :
    (1 ≤ 1 ∧ 1 ≤ ([1, 2] : List ℚ).length) ∧
      Graphs.running_mean [1, 2] 1 = Graphs.slidingMeanSpec [1, 2] 1 :=
  ⟨⟨by norm_num, by norm_num⟩,
    C5_prefix_sum_refines_naive_mean.1 [1, 2] 1 (by norm_num) (by norm_num)⟩

/-- Claim C6: for every non-empty sorted ratings population and every
integer query, percentile_of computes via leftmost binary search exactly
100 times the number of population elements strictly below the query,
divided by the population size; in particular the percentile of 1200 in
[900, 1000, 1200, 1400] is 50. -/
theorem C6_percentile_of_counts_strictly_below (ratings : List Int) (q : Int)
    (hne : ratings ≠ []) (hs : List.Sorted (· ≤ ·) ratings) :
    Graphs.percentile_of ratings q =
        some (100 * (ratings.countP (fun y => decide (y < q)) : ℚ) /
          (ratings.length : ℚ)) ∧
      Graphs.percentile_of [900, 1000, 1200, 1400] 1200 = some 50 := by
  constructor
  · unfold Graphs.percentile_of
    rw [if_neg (by simpa using hne), Graphs.bisect_left_eq_countP ratings q hs]
  · have hbl : Graphs.bisect_left [900, 1000, 1200, 1400] 1200 = 2 := by
      rw [Graphs.bisect_left_eq_countP _ _ (by decide)]
      decide
    unfold Graphs.percentile_of
    rw [if_neg (by norm_num), hbl]
    norm_num

/-- Witness for C6 at the concrete sorted population of the example. -/
theorem C6_witness :
    (([900, 1000, 1200, 1400] : List Int) ≠ [] ∧
        List.Sorted (· ≤ ·) ([900, 1000, 1200, 1400] : List Int)) ∧
      (Graphs.percentile_of [900, 1000, 1200, 1400] 1200 =
          some (100 * (([900, 1000, 1200, 1400] : List Int).countP
            (fun y => decide (y < 1200)) : ℚ) /
            (([900, 1000, 1200, 1400] : List Int).length : ℚ)) ∧
        Graphs.percentile_of [900, 1000, 1200, 1400] 1200 = some 50) :=
  ⟨⟨by decide, by decide⟩,
    C6_percentile_of_counts_strictly_below [900, 1000, 1200, 1400] 1200
      (by decide) (by decide)⟩

/-- Counterexample for claim C9 as stated: on the empty population the
percentile curve computation does not fail at all (with a
ConfigurationError or otherwise); it completes and produces the empty
curve, so no fail-fast error is raised before or instead of it. -/
theorem C9_counterexample :
    Graphs.percentile_curve [] = [] := by
  rfl

/-- Claim C9 amended: on an empty ratings population the percentile
curve completes without error and yields the empty curve, while
percentile_of fails with a ZeroDivisionError at its final division
(modelled as none); no ConfigurationError or fail-fast emptiness check
exists in the code. -/
theorem C9_empty_population_behavior :
    (∀ q : Int, Graphs.percentile_of [] q = none) ∧
      Graphs.percentile_curve [] = [] := by
  exact ⟨fun q => rfl, rfl⟩

/-- Claim C7 amended: the bucketizer silently drops every value below
low = 0; provided the code's checks pass (bin_size nonzero and dividing
100, at least one non-negative value) and every non-negative value lies
below high (= 3900, the fixed binsize*bins of the code), it succeeds and
counts each value in the bucket [low + i*bin_size, low + (i+1)*bin_size)
containing it, and the sum of all bucket counts equals the number of
input values within [low, high). A value at or above high instead raises
an IndexError, refuting the silent-drop part of the original claim. -/
theorem C7_bucket_counts (ratings : List Int) (binsize : ℕ)
    (hb0 : binsize ≠ 0) (hb : 100 % binsize = 0)
    (hne : ratings.filter (fun r => decide (0 ≤ r)) ≠ [])
    (hall : ∀ r ∈ ratings, 0 ≤ r → r < (3900 : Int)) :
    ∃ h, Graphs.hist_heights ratings binsize = .ok h ∧
      h.length = 39 * 100 / binsize ∧
      (∀ i, i < 39 * 100 / binsize → h.getD i 0 = ratings.countP
        (fun r => decide ((binsize : Int) * i ≤ r ∧ r < (binsize : Int) * ((i : Int) + 1)))) ∧
      h.sum = ratings.countP
        (fun r => decide (0 ≤ r ∧ r < (3900 : Int))) := by
  have hb1 : 1 ≤ binsize := Nat.one_le_iff_ne_zero.mpr hb0
  have hbins : binsize * (39 * 100 / binsize) = 39 * 100 :=
    Nat.mul_div_cancel' ((Nat.dvd_of_mod_eq_zero hb).mul_left 39)
  have hmem : ∀ r ∈ ratings.filter (fun r => decide (0 ≤ r)),
      r.toNat / binsize < (List.replicate (39 * 100 / binsize) (0 : ℕ)).length := by
    intro r hr
    obtain ⟨hrmem, hrpos⟩ := List.mem_filter.mp hr
    have hrpos' : (0 : Int) ≤ r := by simpa using hrpos
    have hhigh : r < (3900 : Int) := hall r hrmem hrpos'
    have hnat : r.toNat < 3900 := by omega
    rw [List.length_replicate]
    apply Nat.div_lt_of_lt_mul
    rw [hbins]
    omega
  obtain ⟨h, hfold, hlen, hcount, hsum⟩ :=
    Graphs.hist_fold_some binsize (ratings.filter (fun r => decide (0 ≤ r)))
      (List.replicate (39 * 100 / binsize) 0) hmem
  have hheights : Graphs.hist_heights ratings binsize
      = (ratings.filter (fun r => decide (0 ≤ r))).foldl (Graphs.hist_step binsize)
          (.ok (List.replicate (39 * 100 / binsize) 0)) := by
    unfold Graphs.hist_heights
    rw [if_neg hne, if_neg (by push_neg; exact ⟨hb0, hb⟩)]
  refine ⟨h, by rw [hheights]; exact hfold, by simpa using hlen, ?_, ?_⟩
  · intro i hi
    rw [hcount i (by simpa using hi), Graphs.getD_replicate_eq, if_pos hi,
      Graphs.countP_bucket_eq ratings binsize i hb1]
    exact Nat.zero_add _
  · rw [hsum, List.sum_replicate, smul_zero, Nat.zero_add]
    rw [← List.countP_eq_length_filter]
    apply List.countP_congr
    intro r hr
    simp only [decide_eq_true_eq]
    constructor
    · intro hpos
      exact ⟨hpos, hall r hr hpos⟩
    · intro ⟨hpos, _⟩
      exact hpos

/-- Witness for C7 at a concrete input with a negative (dropped) value and
three in-range values in distinct buckets, binsize 100 (39 buckets). -/
theorem C7_witness :
    ((100 : ℕ) ≠ 0 ∧ (100 : ℕ) % 100 = 0 ∧
        ([-5, 0, 150, 250] : List Int).filter (fun r => decide (0 ≤ r)) ≠ [] ∧
        (∀ r ∈ ([-5, 0, 150, 250] : List Int), 0 ≤ r → r < (3900 : Int))) ∧
      ∃ h, Graphs.hist_heights [-5, 0, 150, 250] 100 = .ok h ∧
        h.length = 39 ∧
        (∀ i, i < 39 → h.getD i 0 = ([-5, 0, 150, 250] : List Int).countP
          (fun r => decide ((100 : Int) * i ≤ r ∧ r < (100 : Int) * ((i : Int) + 1)))) ∧
        h.sum = ([-5, 0, 150, 250] : List Int).countP
          (fun r => decide (0 ≤ r ∧ r < (3900 : Int))) :=
  ⟨⟨by norm_num, by norm_num, by decide, by decide⟩,
    C7_bucket_counts [-5, 0, 150, 250] 100 (by norm_num) (by norm_num)
      (by decide) (by decide)⟩

/-- Counterexample for claim C7 as stated: a value at or above high is
not silently dropped — the counting loop raises IndexError — and even a
value below low is not always consequence-free to drop: when nothing
survives the filter, the non-emptiness assert of line 422 raises instead
of returning all-zero buckets. -/
theorem C7_counterexample :
    Graphs.hist_heights [3900] 100 = .error Graphs.HistError.indexError ∧
      Graphs.hist_heights [-5] 100 = .error Graphs.HistError.assertEmptyRatings := by
  exact ⟨rfl, rfl⟩

/-- Claim C8: for every bucketized input (whose total count is positive,
as _rating_hist guarantees via its non-emptiness assert), the cumulative
percentage label at bucket boundary i equals
round(100 * running_count / total_count), where running_count is the
cumulative count through the first i buckets and total_count the total
number of counted values; there is one label per boundary. -/
theorem C8_cumulative_percent_labels (height : List ℕ) (hpos : 0 < height.sum) :
    (Graphs.cent_labels height).length = height.length + 1 ∧
      ∀ i, i ≤ height.length →
        (Graphs.cent_labels height).getD i 0 =
          Graphs.pyRound (100 * ((height.take i).sum : ℚ) / (height.sum : ℚ)) := by
  have hcl : Graphs.cent_labels height
      = [0] ++ Graphs.centScanSpec (height.sum : ℚ) 0 height := by
    unfold Graphs.cent_labels
    rw [Graphs.cent_fold_eq (height.sum : ℚ) height 0 [0]]
  constructor
  · rw [hcl]
    simp [Graphs.centScanSpec_length]
  · intro i hi
    cases i with
    | zero =>
        rw [hcl]
        simpa using Graphs.pyRound_zero.symm
    | succ j =>
        have hj : j < height.length := by omega
        rw [hcl, List.singleton_append, List.getD_cons_succ,
          Graphs.centScanSpec_getD (height.sum : ℚ) height 0 j hj]
        have harg : (0 + (height.take (j + 1)).sum : ℕ) = (height.take (j + 1)).sum :=
          Nat.zero_add _
        rw [harg]

/-- Witness for C8 at a concrete bucket-count list. -/
theorem C8_witness :
    0 < ([1, 2, 1] : List ℕ).sum ∧
      ((Graphs.cent_labels [1, 2, 1]).length = ([1, 2, 1] : List ℕ).length + 1 ∧
        ∀ i, i ≤ ([1, 2, 1] : List ℕ).length →
          (Graphs.cent_labels [1, 2, 1]).getD i 0 =
            Graphs.pyRound (100 * ((([1, 2, 1] : List ℕ).take i).sum : ℚ) /
              (([1, 2, 1] : List ℕ).sum : ℚ))) :=
  ⟨by norm_num, C8_cumulative_percent_labels [1, 2, 1] (by norm_num)⟩

/-- Claim C10: when every submission's participant type is one of the four
known types, the classifier returns the mapping whose keys are exactly the
known participant types in order (with an empty sequence for types
without submissions) and whose value at each type is the order-preserving
subsequence of submissions of that type; when some submission's
participant type is unknown, the classifier raises KeyError (modelled as
none) instead of creating a new key. -/
theorem C10_classifier_partition (subs : List Graphs.Submission) :
    ((∀ s ∈ subs, s.author.participantType ∈ Graphs.PARTICIPANT_TYPES) →
        Graphs.classify_submissions subs
          = some (Graphs.PARTICIPANT_TYPES.map (fun t =>
              (t, subs.filter (fun s => decide (s.author.participantType = t)))))) ∧
      ((∃ s ∈ subs, s.author.participantType ∉ Graphs.PARTICIPANT_TYPES) →
        Graphs.classify_submissions subs = none) := by
  have hkeys0 : ((Graphs.PARTICIPANT_TYPES.map
      (fun t => (t, ([] : List Graphs.Submission)))).map Prod.fst)
      = Graphs.PARTICIPANT_TYPES := by
    rw [List.map_map]
    exact List.map_id _
  constructor
  · intro hall
    unfold Graphs.classify_submissions
    rw [Graphs.classify_fold_some subs _ (by rw [hkeys0]; decide)
      (by rw [hkeys0]; exact hall)]
    simp [List.map_map]
  · intro hex
    unfold Graphs.classify_submissions
    exact Graphs.classify_fold_none subs _ (by rw [hkeys0]; decide)
      (by rw [hkeys0]; exact hex)

/-- Witness for C10: a known-type pair of submissions classifies into the
four fixed partitions, and a single unknown-type submission fails. -/
theorem C10_witness :
    ((∀ s ∈ ([⟨⟨"PRACTICE"⟩, 5⟩, ⟨⟨"CONTESTANT"⟩, 6⟩] : List Graphs.Submission),
          s.author.participantType ∈ Graphs.PARTICIPANT_TYPES) ∧
        Graphs.classify_submissions [⟨⟨"PRACTICE"⟩, 5⟩, ⟨⟨"CONTESTANT"⟩, 6⟩]
          = some (Graphs.PARTICIPANT_TYPES.map (fun t =>
              (t, ([⟨⟨"PRACTICE"⟩, 5⟩, ⟨⟨"CONTESTANT"⟩, 6⟩] : List Graphs.Submission).filter
                (fun s => decide (s.author.participantType = t)))))) ∧
      ((∃ s ∈ ([⟨⟨"GHOST"⟩, 7⟩] : List Graphs.Submission),
          s.author.participantType ∉ Graphs.PARTICIPANT_TYPES) ∧
        Graphs.classify_submissions [⟨⟨"GHOST"⟩, 7⟩] = none) :=
  ⟨⟨by decide, (C10_classifier_partition [⟨⟨"PRACTICE"⟩, 5⟩, ⟨⟨"CONTESTANT"⟩, 6⟩]).1 (by decide)⟩,
    ⟨by decide, (C10_classifier_partition [⟨⟨"GHOST"⟩, 7⟩]).2 (by decide)⟩⟩

/-- Witness for C2 at a concrete non-empty input. -/
theorem C2_witness :
    ([⟨0, 1600, 1⟩, ⟨1600, 1550, 2⟩] : List Graphs.RatingChange) ≠ [] ∧
      ((( max_prefix [⟨0, 1600, 1⟩, ⟨1600, 1550, 2⟩]).map
            Graphs.RatingChange.newRating).Chain' (· ≤ ·) ∧
        ( max_prefix [⟨0, 1600, 1⟩, ⟨1600, 1550, 2⟩]).Sublist
          [⟨0, 1600, 1⟩, ⟨1600, 1550, 2⟩]) :=
  ⟨by decide, C2_max_prefix_monotone_sublist _ (by decide)⟩
